import Mathlib

/-!
Verification of the instance-seg repository (dataset adapters, clustering-based
label predictor, Dice scoring, evaluation loop) against its specification.

Arrays are shallowly embedded: a 2-D integer label array is flattened to a
`List Int` wherever only elementwise structure matters (the Dice scorer), and
kept as `List (List Int)` where spatial structure matters (the label
predictor).  Real-valued scores are modelled as rationals (`ℚ`); Python float
division by zero raises, which is modelled by `Option` where it can occur.
-/

namespace InstanceSeg

/-- `np.unique`: the sorted list of distinct values of an integer array. -/
def npUnique (l : List Int) : List Int :=
  List.insertionSort (· ≤ ·) l.dedup

/-- One inner step of `dice_score`: the standard Dice coefficient between the
binary masks `x == v` and `y == w`, i.e. `2*overlap / (|x==v| + |y==w|)`,
where `overlap = sum(logical_and(x==v, y==w))` and the denominator is
`sum(x_mask + y_mask)`.  Arrays are flattened; the elementwise `logical_and`
over same-shaped arrays becomes a count over the zipped lists. -/
def diceCoeff (x y : List Int) (v w : Int) : ℚ :=
  2 * (((x.zip y).countP (fun p => p.1 = v && p.2 = w) : ℚ)) /
    ((x.countP (· = v) : ℚ) + (y.countP (· = w) : ℚ))

/-- The inner loop of `dice_score`: `max_val` starts at `0` and is folded with
`max` over the Dice coefficients against every distinct value of `y`. -/
def bestMatch (x y : List Int) (v : Int) : ℚ :=
  ((npUnique y).map (diceCoeff x y v)).foldl max 0

/-- `dice_score(x, y)` from `evaluate.py`: for every distinct value of `x`,
take the best Dice coefficient against the distinct values of `y`, sum these,
and divide by the number of distinct values of `x`. -/
def dice_score (x y : List Int) : ℚ :=
  (((npUnique x).map (bestMatch x y)).sum) / ((npUnique x).length : ℚ)

/-- `best_symmetric_dice(pred, gt)` from `evaluate.py`: the larger of the two
directed `dice_score` values. -/
def best_symmetric_dice (pred gt : List Int) : ℚ :=
  max (dice_score pred gt) (dice_score gt pred)

/-- Spec-side rendering of the inner maximisation: "the maximum over all
distinct label values w occurring in y of the Dice coefficient". -/
def bestMatchSpec (x y : List Int) (v : Int) : ℚ :=
  if h : y.toFinset.Nonempty then y.toFinset.sup' h (fun w => diceCoeff x y v w)
  else 0

/-- Spec-side rendering of `dice_score`, following the specification text:
"the average, over all distinct label values v occurring in x, of the maximum
over all distinct label values w occurring in y of the Dice coefficient". -/
def dice_score_spec (x y : List Int) : ℚ :=
  (∑ v ∈ x.toFinset, bestMatchSpec x y v) / (x.toFinset.card : ℚ)

/- ### Helper lemmas about counting and folded maxima -/

theorem countP_zip_le_left (x y : List Int) (v w : Int) :
    (x.zip y).countP (fun p => p.1 = v && p.2 = w) ≤ x.countP (· = v) := by
  induction x generalizing y with
  | nil => simp
  | cons a x ih =>
    cases y with
    | nil => simp
    | cons b y =>
      simp only [List.zip_cons_cons, List.countP_cons]
      have h := ih y
      by_cases hav : a = v <;> by_cases hbw : b = w <;> simp [hav, hbw] <;> omega

theorem countP_zip_le_right (x y : List Int) (v w : Int) :
    (x.zip y).countP (fun p => p.1 = v && p.2 = w) ≤ y.countP (· = w) := by
  induction x generalizing y with
  | nil => simp
  | cons a x ih =>
    cases y with
    | nil => simp
    | cons b y =>
      simp only [List.zip_cons_cons, List.countP_cons]
      have h := ih y
      by_cases hav : a = v <;> by_cases hbw : b = w <;> simp [hav, hbw] <;> omega

theorem diceCoeff_nonneg (x y : List Int) (v w : Int) :
    0 ≤ diceCoeff x y v w := by
  unfold diceCoeff
  positivity

theorem diceCoeff_le_one (x y : List Int) (v w : Int) :
    diceCoeff x y v w ≤ 1 := by
  unfold diceCoeff
  rcases Nat.eq_zero_or_pos (x.countP (· = v) + y.countP (· = w)) with h0 | hpos
  · rcases Nat.add_eq_zero.mp h0 with ⟨hx0, hy0⟩
    simp [hx0, hy0]
  · rw [div_le_one (by exact_mod_cast hpos)]
    have h1 := countP_zip_le_left x y v w
    have h2 := countP_zip_le_right x y v w
    have : ((x.zip y).countP (fun p => p.1 = v && p.2 = w) : ℚ) +
        ((x.zip y).countP (fun p => p.1 = v && p.2 = w) : ℚ) ≤
        (x.countP (· = v) : ℚ) + (y.countP (· = w) : ℚ) := by
      exact add_le_add (by exact_mod_cast h1) (by exact_mod_cast h2)
    linarith

theorem le_foldl_max (l : List ℚ) (a : ℚ) : a ≤ l.foldl max a := by
  induction l generalizing a with
  | nil => simp
  | cons b l ih => exact le_trans (le_max_left a b) (ih (max a b))

theorem foldl_max_le (l : List ℚ) (a b : ℚ) (ha : a ≤ b)
    (h : ∀ q ∈ l, q ≤ b) : l.foldl max a ≤ b := by
  induction l generalizing a with
  | nil => simpa
  | cons c l ih =>
    simp only [List.foldl_cons]
    exact ih _ (max_le ha (h c (List.mem_cons_self c l)))
      (fun q hq => h q (List.mem_cons_of_mem c hq))

theorem foldl_max_map_eq (f : Int → ℚ) (l : List Int) (a : ℚ) :
    (l.map f).foldl max a =
      if h : l.toFinset.Nonempty then max a (l.toFinset.sup' h f) else a := by
  induction l generalizing a with
  | nil => simp
  | cons c l ih =>
    simp only [List.map_cons, List.foldl_cons, List.toFinset_cons]
    rw [ih (max a (f c))]
    by_cases hl : l.toFinset.Nonempty
    · rw [dif_pos hl, dif_pos (Finset.insert_nonempty c l.toFinset)]
      rw [Finset.sup'_insert hl]
      simp [max_assoc]
    · rw [dif_neg hl, dif_pos (Finset.insert_nonempty c l.toFinset)]
      rw [Finset.not_nonempty_iff_eq_empty] at hl
      simp [hl]

theorem toFinset_npUnique (l : List Int) : (npUnique l).toFinset = l.toFinset := by
  ext a
  simp only [List.mem_toFinset, npUnique]
  rw [(List.perm_insertionSort (· ≤ ·) l.dedup).mem_iff, List.mem_dedup]

theorem npUnique_perm_dedup (l : List Int) : List.Perm (npUnique l) l.dedup :=
  List.perm_insertionSort (· ≤ ·) l.dedup

theorem bestMatch_eq_spec (x y : List Int) (v : Int) :
    bestMatch x y v = bestMatchSpec x y v := by
  unfold bestMatch bestMatchSpec
  rw [foldl_max_map_eq (diceCoeff x y v) (npUnique y) 0, toFinset_npUnique]
  by_cases hy : y.toFinset.Nonempty
  · rw [dif_pos hy, dif_pos hy]
    refine max_eq_right ?_
    obtain ⟨w, hw⟩ := hy
    exact le_trans (diceCoeff_nonneg x y v w) (Finset.le_sup' _ hw)
  · rw [dif_neg hy, dif_neg hy]

theorem map_npUnique_sum (g : Int → ℚ) (l : List Int) :
    ((npUnique l).map g).sum = ∑ v ∈ l.toFinset, g v := by
  rw [((npUnique_perm_dedup l).map g).sum_eq]
  have hfs : l.dedup.toFinset = l.toFinset := by
    ext a; simp
  rw [← hfs, List.sum_toFinset g (List.nodup_dedup l)]

theorem npUnique_length (l : List Int) :
    (npUnique l).length = l.toFinset.card := by
  rw [(npUnique_perm_dedup l).length_eq, List.card_toFinset]

theorem dice_score_eq_spec (x y : List Int) :
    dice_score x y = dice_score_spec x y := by
  unfold dice_score dice_score_spec
  rw [npUnique_length]
  congr 1
  rw [List.map_congr_left (fun v _ => bestMatch_eq_spec x y v)]
  exact map_npUnique_sum (bestMatchSpec x y) x

theorem bestMatch_nonneg (x y : List Int) (v : Int) : 0 ≤ bestMatch x y v :=
  le_foldl_max _ 0

theorem bestMatch_le_one (x y : List Int) (v : Int) : bestMatch x y v ≤ 1 := by
  refine foldl_max_le _ 0 1 zero_le_one ?_
  intro q hq
  obtain ⟨w, _, rfl⟩ := List.mem_map.mp hq
  exact diceCoeff_le_one x y v w

theorem dice_score_nonneg (x y : List Int) : 0 ≤ dice_score x y := by
  unfold dice_score
  refine div_nonneg (List.sum_nonneg ?_) (by positivity)
  intro q hq
  obtain ⟨v, _, rfl⟩ := List.mem_map.mp hq
  exact bestMatch_nonneg x y v

theorem dice_score_le_one (x : List Int) (y : List Int) (hx : x ≠ []) :
    dice_score x y ≤ 1 := by
  unfold dice_score
  have hlen : 0 < (npUnique x).length := by
    rw [(npUnique_perm_dedup x).length_eq]
    have : x.dedup ≠ [] := fun h => hx ((List.dedup_eq_nil x).mp h)
    exact List.length_pos.mpr this
  rw [div_le_one (by exact_mod_cast hlen)]
  have hsum : ((npUnique x).map (bestMatch x y)).sum ≤
      ((npUnique x).map (bestMatch x y)).length • (1 : ℚ) := by
    refine List.sum_le_card_nsmul _ 1 ?_
    intro q hq
    obtain ⟨v, _, rfl⟩ := List.mem_map.mp hq
    exact bestMatch_le_one x y v
  simpa using hsum

/- ### Invariance of the Dice scorer under injective relabeling -/

theorem toFinset_map_list (l : List Int) (f : Int → Int) :
    (l.map f).toFinset = l.toFinset.image f := by
  ext a
  simp

theorem countP_eq_map (x : List Int) (σ : Int → Int) (v : Int)
    (hσ : Function.Injective σ) :
    (x.map σ).countP (· = σ v) = x.countP (· = v) := by
  rw [List.countP_map]
  refine List.countP_congr ?_
  intro a _
  simp [Function.comp, hσ.eq_iff]

theorem countP_zip_eq_map (x y : List Int) (σ τ : Int → Int) (v w : Int)
    (hσ : Function.Injective σ) (hτ : Function.Injective τ) :
    ((x.map σ).zip (y.map τ)).countP (fun p => p.1 = σ v && p.2 = τ w) =
      (x.zip y).countP (fun p => p.1 = v && p.2 = w) := by
  rw [List.zip_map, List.countP_map]
  refine List.countP_congr ?_
  intro p _
  simp [Prod.map, hσ.eq_iff, hτ.eq_iff]

theorem diceCoeff_map (x y : List Int) (σ τ : Int → Int) (v w : Int)
    (hσ : Function.Injective σ) (hτ : Function.Injective τ) :
    diceCoeff (x.map σ) (y.map τ) (σ v) (τ w) = diceCoeff x y v w := by
  unfold diceCoeff
  rw [countP_eq_map x σ v hσ, countP_eq_map y τ w hτ,
    countP_zip_eq_map x y σ τ v w hσ hτ]

theorem bestMatchSpec_map (x y : List Int) (σ τ : Int → Int) (v : Int)
    (hσ : Function.Injective σ) (hτ : Function.Injective τ) :
    bestMatchSpec (x.map σ) (y.map τ) (σ v) = bestMatchSpec x y v := by
  unfold bestMatchSpec
  by_cases hy : y.toFinset.Nonempty
  · have hy2 : (y.map τ).toFinset.Nonempty := by
      rw [toFinset_map_list]
      exact hy.image τ
    rw [dif_pos hy2, dif_pos hy]
    have himg : (y.map τ).toFinset = y.toFinset.image τ := toFinset_map_list y τ
    rw [Finset.sup'_congr hy2 himg (fun a _ => rfl)]
    rw [Finset.sup'_image]
    refine Finset.sup'_congr _ rfl ?_
    intro w hw
    exact diceCoeff_map x y σ τ v w hσ hτ
  · have hy2 : ¬ (y.map τ).toFinset.Nonempty := by
      rw [toFinset_map_list, Finset.image_nonempty]
      exact hy
    rw [dif_neg hy2, dif_neg hy]

/-- C10: `dice_score` is invariant under injective relabeling of the instance
ids of both arguments: only the partitions induced by the label arrays matter,
not the particular id values. -/
theorem C10_dice_score_relabel_invariant (x y : List Int) (σ τ : Int → Int)
    (hσ : Function.Injective σ) (hτ : Function.Injective τ) :
    dice_score (x.map σ) (y.map τ) = dice_score x y := by
  rw [dice_score_eq_spec, dice_score_eq_spec]
  unfold dice_score_spec
  have hcard : (x.map σ).toFinset.card = x.toFinset.card := by
    rw [toFinset_map_list, Finset.card_image_of_injective _ hσ]
  have hsum : (∑ v ∈ (x.map σ).toFinset, bestMatchSpec (x.map σ) (y.map τ) v) =
      ∑ v ∈ x.toFinset, bestMatchSpec x y v := by
    rw [toFinset_map_list,
      Finset.sum_image (fun a _ b _ h => hσ h)]
    exact Finset.sum_congr rfl fun v _ => bestMatchSpec_map x y σ τ v hσ hτ
  rw [hcard, hsum]

/-- Witness for C10 at a concrete pair of arrays and concrete injective
relabelings. -/
theorem C10_witness :
    dice_score (List.map (fun v => v + 1) [1, 0, 2]) (List.map (fun v => v - 5) [0, 2, 2]) =
      dice_score [1, 0, 2] [0, 2, 2] :=
  C10_dice_score_relabel_invariant [1, 0, 2] [0, 2, 2] _ _
    (fun a b h => by omega) (fun a b h => by omega)

/-- C2: `dice_score x y` on non-empty arrays equals the average, over the
distinct label values of `x`, of the maximum over the distinct label values of
`y` of the Dice coefficient, and the result lies in `[0, 1]`. -/
theorem C2_dice_score_correct (x y : List Int) (hx : x ≠ []) (_hy : y ≠ []) :
    dice_score x y = dice_score_spec x y ∧
      0 ≤ dice_score x y ∧ dice_score x y ≤ 1 :=
  ⟨dice_score_eq_spec x y, dice_score_nonneg x y, dice_score_le_one x y hx⟩

/-- Witness for C2 at a concrete pair of non-empty arrays. -/
theorem C2_witness :
    ([0, 1] : List Int) ≠ [] ∧ ([1, 1] : List Int) ≠ [] ∧
      (dice_score [0, 1] [1, 1] = dice_score_spec [0, 1] [1, 1] ∧
        0 ≤ dice_score [0, 1] [1, 1] ∧ dice_score [0, 1] [1, 1] ≤ 1) :=
  ⟨by decide, by decide, C2_dice_score_correct [0, 1] [1, 1] (by decide) (by decide)⟩

/-- C7: `best_symmetric_dice` is the maximum of the two directed scores, hence
symmetric in its arguments; the perfect-inverse labeling scores `1` and the
crossed labeling scores `1/2`. -/
theorem C7_best_symmetric_dice_correct :
    (∀ p g : List Int,
        best_symmetric_dice p g = max (dice_score p g) (dice_score g p)) ∧
    (∀ p g : List Int, best_symmetric_dice p g = best_symmetric_dice g p) ∧
    best_symmetric_dice [1, 1, 0, 0] [0, 0, 1, 1] = 1 ∧
    best_symmetric_dice [1, 1, 2, 2] [1, 2, 1, 2] = 1/2 := by
  refine ⟨fun p g => rfl, fun p g => max_comm _ _, ?_, ?_⟩
  · norm_num [best_symmetric_dice, dice_score, bestMatch, diceCoeff, npUnique,
      List.insertionSort, List.orderedInsert]
  · norm_num [best_symmetric_dice, dice_score, bestMatch, diceCoeff, npUnique,
      List.insertionSort, List.orderedInsert]

/- ### Sample providers (`costum_dataset.py`) -/

/-- Python `str.split` with separator `"\n"`, on a file content given as a
character list: the list of newline-separated fields (an empty content gives
one empty field, exactly as in Python). -/
def splitNl : List Char → List (List Char)
  | [] => [[]]
  | c :: rest =>
    if c = '\n' then [] :: splitNl rest
    else
      match splitNl rest with
      | [] => [[c]]
      | f :: fs => (c :: f) :: fs

/-- The identifier list built by both dataset constructors:
`ids_file.read().split("\n")[:-1]`, i.e. all newline-separated fields with the
last field dropped. -/
def loadIds (content : List Char) : List (List Char) :=
  (splitNl content).dropLast

/-- `coco224Dataset.__len__`: the length of the stored identifier list. -/
def coco224Dataset_len (content : List Char) : ℕ :=
  (loadIds content).length

/-- `VOCDataset.__len__`: the length of the stored identifier list (the
constructor parses the identifier file identically to `coco224Dataset`). -/
def VOCDataset_len (content : List Char) : ℕ :=
  (loadIds content).length

/-- The number of non-empty lines of a file content (newline-separated fields
that are non-empty), the quantity named by the specification. -/
def nonEmptyLines (content : List Char) : ℕ :=
  ((splitNl content).filter (· ≠ [])).length

/-- Encoding of a well-formed identifier file: each identifier followed by a
newline. -/
def encodeIds (ids : List (List Char)) : List Char :=
  (ids.map (fun id => id ++ ['\n'])).flatten

theorem splitNl_length (l : List Char) :
    (splitNl l).length = l.count '\n' + 1 := by
  induction l with
  | nil => simp [splitNl]
  | cons c rest ih =>
    by_cases hc : c = '\n'
    · simp [splitNl, hc, List.count_cons, ih]
    · rcases h : splitNl rest with _ | ⟨f, fs⟩
      · rw [h] at ih
        simp at ih
      · rw [h] at ih
        simp only [splitNl, hc, if_false, h, List.length_cons, List.count_cons]
        simp only [List.length_cons] at ih
        simp [hc, ih]

theorem loadIds_length (content : List Char) :
    (loadIds content).length = content.count '\n' := by
  rw [loadIds, List.length_dropLast, splitNl_length]
  omega

theorem splitNl_append_of_no_nl (a b : List Char) (ha : '\n' ∉ a)
    (f : List Char) (fs : List (List Char)) (hb : splitNl b = f :: fs) :
    splitNl (a ++ b) = (a ++ f) :: fs := by
  induction a with
  | nil => simpa using hb
  | cons c a ih =>
    have hc : c ≠ '\n' := fun h => ha (h ▸ List.mem_cons_self c a)
    have ha2 : '\n' ∉ a := fun h => ha (List.mem_cons_of_mem c h)
    have hih := ih ha2
    simp only [List.cons_append, splitNl, hc, if_false, List.append_eq, hih]

theorem splitNl_encodeIds (ids : List (List Char))
    (h : ∀ id ∈ ids, '\n' ∉ id) :
    splitNl (encodeIds ids) = ids ++ [[]] := by
  induction ids with
  | nil => simp [encodeIds, splitNl]
  | cons id ids ih =>
    have hidm : '\n' ∉ id := h id (List.mem_cons_self id ids)
    have hrest : ∀ i ∈ ids, '\n' ∉ i := fun i hi => h i (List.mem_cons_of_mem id hi)
    have henc : encodeIds (id :: ids) = id ++ ('\n' :: encodeIds ids) := by
      simp [encodeIds]
    rw [henc]
    have hnl : splitNl ('\n' :: encodeIds ids) = [] :: splitNl (encodeIds ids) := by
      simp [splitNl]
    rw [splitNl_append_of_no_nl id ('\n' :: encodeIds ids) hidm []
      (splitNl (encodeIds ids)) hnl, ih hrest]
    simp

/-- Counterexample for C4: on the one-line identifier file `"a"` with no
trailing newline, the provider length is `0` while the file has one non-empty
line (the `[:-1]` slice drops the final field unconditionally, not just a
trailing empty one). -/
theorem C4_counterexample :
    coco224Dataset_len ['a'] ≠ nonEmptyLines ['a'] ∧
      VOCDataset_len ['a'] ≠ nonEmptyLines ['a'] := by
  constructor <;> decide

/-- C4 (amended): for every identifier file, both providers report the number
of newline characters in the file; for a well-formed file — a concatenation of
non-empty newline-terminated identifier lines — this equals the number of
identifiers and the number of non-empty lines. -/
theorem C4_length_newline_count :
    (∀ content : List Char,
        coco224Dataset_len content = content.count '\n' ∧
        VOCDataset_len content = content.count '\n') ∧
    (∀ ids : List (List Char), (∀ id ∈ ids, id ≠ [] ∧ '\n' ∉ id) →
        coco224Dataset_len (encodeIds ids) = ids.length ∧
        coco224Dataset_len (encodeIds ids) = nonEmptyLines (encodeIds ids)) := by
  constructor
  · intro content
    exact ⟨loadIds_length content, loadIds_length content⟩
  · intro ids h
    have hsplit : splitNl (encodeIds ids) = ids ++ [[]] :=
      splitNl_encodeIds ids (fun id hid => (h id hid).2)
    have hlen : coco224Dataset_len (encodeIds ids) = ids.length := by
      rw [coco224Dataset_len, loadIds, hsplit]
      simp
    refine ⟨hlen, ?_⟩
    rw [hlen, nonEmptyLines, hsplit]
    rw [List.filter_append]
    have hfil : ids.filter (· ≠ []) = ids := by
      rw [List.filter_eq_self]
      intro a ha
      simpa using (h a ha).1
    simp only [ne_eq, decide_not] at hfil
    simp [hfil]

/-- Witness for C4 at a concrete well-formed two-identifier file. -/
theorem C4_witness :
    (∀ id ∈ [['a'], ['b']], id ≠ [] ∧ '\n' ∉ id) ∧
      (coco224Dataset_len (encodeIds [['a'], ['b']]) = 2 ∧
        coco224Dataset_len (encodeIds [['a'], ['b']]) =
          nonEmptyLines (encodeIds [['a'], ['b']])) :=
  ⟨by decide, C4_length_newline_count.2 [['a'], ['b']] (by decide)⟩

/-- Python list indexing `l[i]` on an `int` index: negative indices count from
the end; an index out of range on either side raises `IndexError`, modelled by
`none`. -/
def pyIndex {α : Type} (l : List α) (i : Int) : Option α :=
  let j : Int := if i < 0 then (l.length : Int) + i else i
  if j < 0 then none else l[j.toNat]?

/-- `coco224Dataset.__getitem__`: resolve `self.ids[item]` Python-style, then
build the image path `data_path + id + ".jpg"` and the label path
`labels_path + id + ".npz"` the sample is loaded from.  The actual file
decoding, tensor conversion and normalization are external I/O on those two
paths; `none` models the `IndexError` escaping to the caller. -/
def coco224Dataset_getitem (data_path labels_path : List Char)
    (ids : List (List Char)) (item : Int) : Option (List Char × List Char) :=
  (pyIndex ids item).map
    (fun id => (data_path ++ id ++ ['.', 'j', 'p', 'g'],
                labels_path ++ id ++ ['.', 'n', 'p', 'z']))

/-- `VOCDataset.__getitem__`: same index resolution; the label is a `.png`
categorical mask instead of a `.npz` array. -/
def VOCDataset_getitem (data_path labels_path : List Char)
    (ids : List (List Char)) (item : Int) : Option (List Char × List Char) :=
  (pyIndex ids item).map
    (fun id => (data_path ++ id ++ ['.', 'j', 'p', 'g'],
                labels_path ++ id ++ ['.', 'p', 'n', 'g']))

theorem pyIndex_eq_none_iff {α : Type} (l : List α) (i : Int) :
    pyIndex l i = none ↔ ((l.length : Int) ≤ i ∨ i < -(l.length : Int)) := by
  unfold pyIndex
  by_cases hi : i < 0
  · simp only [hi, if_true]
    by_cases hj : (l.length : Int) + i < 0
    · simp only [hj, if_true, true_iff]
      right
      omega
    · simp only [hj, if_false]
      rw [List.getElem?_eq_none_iff]
      omega
  · simp only [hi, if_false]
    rw [List.getElem?_eq_none_iff]
    omega

/-- Counterexample for C5: the index `-1` lies outside `[0, length())`, yet
`__getitem__` returns a sample (Python negative indexing wraps around) instead
of failing with an `IndexError`. -/
theorem C5_counterexample :
    coco224Dataset_getitem [] [] [['a']] (-1) ≠ none ∧
      VOCDataset_getitem [] [] [['a']] (-1) ≠ none := by
  constructor <;> decide

/-- C5 (amended): `__getitem__` fails with an `IndexError` exactly for the
indices `i` with `i ≥ length()` or `i < -length()`; negative indices in
`[-length(), -1]` wrap around Python-style and return a sample. -/
theorem C5_getitem_index_error :
    ∀ (dp lp : List Char) (ids : List (List Char)) (i : Int),
      (coco224Dataset_getitem dp lp ids i = none ↔
        ((ids.length : Int) ≤ i ∨ i < -(ids.length : Int))) ∧
      (VOCDataset_getitem dp lp ids i = none ↔
        ((ids.length : Int) ≤ i ∨ i < -(ids.length : Int))) := by
  intro dp lp ids i
  constructor
  · rw [coco224Dataset_getitem, Option.map_eq_none']
    exact pyIndex_eq_none_iff ids i
  · rw [VOCDataset_getitem, Option.map_eq_none']
    exact pyIndex_eq_none_iff ids i

/-- `transforms.CenterCrop([h, w])` applied to a PIL image: the crop box has
exactly the target extent and PIL pads when the box exceeds the image, so the
output size is exactly `(w, h)` (sizes are `(width, height)` pairs),
independent of the input size. -/
def center_crop_size (h w : ℕ) (_size : ℕ × ℕ) : ℕ × ℕ := (w, h)

/-- Size behaviour of `resize_sample` from `costum_dataset.py`: the scale
ratio is the min (or, when restoring, the max) of the two per-axis target
ratios, the resize target is `int(x * ratio)` per axis (floor, as the values
are non-negative), and the result is center-cropped to `[h, w]`. -/
def resize_sample_size (old_size : ℕ × ℕ) (h w : ℕ) (restore : Bool) : ℕ × ℕ :=
  let w_ratio : ℚ := (w : ℚ) / (old_size.1 : ℚ)
  let h_ratio : ℚ := (h : ℚ) / (old_size.2 : ℚ)
  let ratio : ℚ := if restore then max w_ratio h_ratio else min w_ratio h_ratio
  let new_size : ℕ × ℕ :=
    (Int.toNat ⌊(old_size.1 : ℚ) * ratio⌋, Int.toNat ⌊(old_size.2 : ℚ) * ratio⌋)
  center_crop_size h w new_size

/-- C6: resizing an image of size `(W, H)` to a target `(th, tw)` with
`restore = False` and then applying `resize_sample` with `restore = True`
towards the original size yields exactly the original dimensions (the final
center crop fixes the output extent, so the round-trip error is zero, well
within the rounding tolerance the claim allows). -/
theorem C6_resize_round_trip (W H th tw : ℕ)
    (_hW : 0 < W) (_hH : 0 < H) (_hth : 0 < th) (_htw : 0 < tw) :
    resize_sample_size (resize_sample_size (W, H) th tw false) H W true = (W, H) := by
  simp [resize_sample_size, center_crop_size]

/-- Witness for C6 at a concrete image size and target. -/
theorem C6_witness :
    0 < 500 ∧ 0 < 375 ∧ 0 < 224 ∧ 0 < 224 ∧
      resize_sample_size (resize_sample_size (500, 375) 224 224 false) 375 500 true =
        (500, 375) :=
  ⟨by decide, by decide, by decide, by decide,
    C6_resize_round_trip 500 375 224 224 (by decide) (by decide) (by decide) (by decide)⟩

/- ### Label predictor (`evaluate.py`) -/

/-- Output extent of one axis of `skimage.measure.block_reduce` with block
size `d`: the image is padded up to a multiple of `d` and then reduced, giving
`ceil(n / d)`. -/
def block_reduce_dim (n d : ℕ) : ℕ := (n + d - 1) / d

/-- Output extent of one axis of `skimage.transform.rescale` with integer
scale factor `d` (the rounded product `n * d` is exact here). -/
def rescale_dim (n d : ℕ) : ℕ := n * d

/-- `cluster_features` from `evaluate.py`: run the density-based clusterer
(`hdbscan.fit_predict`, an opaque external call modelled as a function
parameter) and remap its noise sentinel `-1` to the background id `0`
(`labels[np.where(labels==-1)] = 0`). -/
def cluster_features (fit_predict : List (List ℚ) → List Int)
    (features : List (List ℚ)) : List Int :=
  (fit_predict features).map (fun v => if v = -1 then 0 else v)

/-- `np.reshape(cluster_mask, [h, w])`: cut a flat list into `h` rows of `w`
entries. -/
def reshape2d {α : Type} (l : List α) (h w : ℕ) : List (List α) :=
  (List.range h).map (fun i => (l.drop (i * w)).take w)

/-- `skimage.transform.rescale(..., order=0, scale=d, preserve_range=True)`
for an integer upscale factor: nearest-neighbour interpolation replicates
every source pixel `d` times along each axis. -/
def rescale_nearest {α : Type} (mask : List (List α)) (d : ℕ) : List (List α) :=
  ((mask.map (fun row => (row.map (List.replicate d)).flatten)).map
    (List.replicate d)).flatten

/-- `predict_label` from `evaluate.py`, after the spatial transpose and
max-pooling have produced the flattened pooled feature list `flat_features`
with pooled extents `h` and `w` (`h = block_reduce_dim H d`,
`w = block_reduce_dim W d` for an original `[C, H, W]` input): PCA (`reduce`)
and the clusterer are opaque external calls modelled as function parameters;
the clustered ids are reshaped to `[h, w]` and upscaled back by `d` with
order-0 interpolation (the final `np.asarray(..., np.int32)` cast is the
identity on these integer ids). -/
def predict_label (reduceFn : List (List ℚ) → List (List ℚ))
    (fit_predict : List (List ℚ) → List Int)
    (flat_features : List (List ℚ)) (h w d : ℕ) : List (List Int) :=
  let reduced_features := reduceFn flat_features
  let cluster_mask := cluster_features fit_predict reduced_features
  let predicted_label := reshape2d cluster_mask h w
  rescale_nearest predicted_label d

theorem sum_map_const {α : Type} (l : List α) (d : ℕ) :
    (l.map (fun _ => d)).sum = d * l.length := by
  induction l with
  | nil => simp
  | cons a l ih =>
    simp only [List.map_cons, List.sum_cons, ih, List.length_cons]
    ring

theorem rescale_nearest_length {α : Type} (mask : List (List α)) (d : ℕ) :
    (rescale_nearest mask d).length = d * mask.length := by
  induction mask with
  | nil => simp [rescale_nearest]
  | cons r mask ih =>
    unfold rescale_nearest at ih ⊢
    simp only [List.map_cons, List.flatten_cons, List.length_append,
      List.length_replicate, ih, List.length_cons]
    ring

theorem rescale_nearest_row_length {α : Type} (mask : List (List α)) (d : ℕ)
    (row : List α) (hrow : row ∈ rescale_nearest mask d) :
    ∃ r ∈ mask, row = (r.map (List.replicate d)).flatten := by
  unfold rescale_nearest at hrow
  obtain ⟨rows, hrows, hin⟩ := List.mem_flatten.mp hrow
  obtain ⟨r2, hr2, rfl⟩ := List.mem_map.mp hrows
  obtain ⟨r, hr, rfl⟩ := List.mem_map.mp hr2
  exact ⟨r, hr, (List.eq_of_mem_replicate hin)⟩

theorem flatten_replicate_length {α : Type} (r : List α) (d : ℕ) :
    ((r.map (List.replicate d)).flatten).length = d * r.length := by
  rw [List.length_flatten, List.map_map]
  have : List.map (List.length ∘ List.replicate d) r = r.map (fun _ => d) := by
    refine List.map_congr_left ?_
    intro a _
    simp
  rw [this, sum_map_const]

theorem reshape2d_length {α : Type} (l : List α) (h w : ℕ) :
    (reshape2d l h w).length = h := by
  simp [reshape2d]

theorem reshape2d_row_length {α : Type} (l : List α) (h w : ℕ)
    (hl : l.length = h * w) (row : List α) (hrow : row ∈ reshape2d l h w) :
    row.length = w := by
  obtain ⟨i, hi, rfl⟩ := List.mem_map.mp hrow
  rw [List.mem_range] at hi
  rw [List.length_take, List.length_drop, hl]
  have : i * w + w ≤ h * w := by
    have h1 : i + 1 ≤ h := hi
    calc i * w + w = (i + 1) * w := by ring
    _ ≤ h * w := Nat.mul_le_mul_right w h1
  omega

theorem block_reduce_dim_of_dvd (n d : ℕ) (hd : 0 < d) (hdvd : d ∣ n) :
    d * block_reduce_dim n d = n := by
  obtain ⟨k, rfl⟩ := hdvd
  unfold block_reduce_dim
  have hk : (d * k + d - 1) / d = k := by
    rcases Nat.eq_zero_or_pos k with rfl | hkpos
    · simp only [Nat.mul_zero, Nat.zero_add]
      exact Nat.div_eq_of_lt (by omega)
    · have hcomm : d * k = k * d := Nat.mul_comm d k
      have h1 : d * k + d - 1 = (d - 1) + k * d := by omega
      rw [h1, Nat.add_mul_div_right _ _ hd, Nat.div_eq_of_lt (by omega)]
      omega
  rw [hk]

/-- Counterexample for C3: for an input whose spatial extent is `3 × 3` and
`downsample_factor = 2` (with a clustering call that, as always, returns one
label per pooled point), the output mask of `predict_label` is `4 × 4`, not
`3 × 3`: the max-pooling pads `3` up to `ceil(3/2) = 2` blocks and the
upscaling returns `2 * 2 = 4` pixels per axis. -/
theorem C3_counterexample :
    (predict_label id (fun l => List.replicate l.length 0)
      (List.replicate (block_reduce_dim 3 2 * block_reduce_dim 3 2) [(0 : ℚ)])
      (block_reduce_dim 3 2) (block_reduce_dim 3 2) 2).length ≠ 3 := by
  decide

/-- C3 (amended): when the `downsample_factor` `d` divides both spatial
extents `H` and `W` of the input feature tensor (in particular always for
`d = 1`, and for `d ∈ {2, 4}` on extents that are multiples of `d`), and the
reduction/clustering calls succeed — returning one label per pooled point —
the mask returned by `predict_label` is exactly `H × W`.  In general the
output extent is `ceil(H/d)*d × ceil(W/d)*d`, which exceeds `H × W` when `d`
does not divide the extents. -/
theorem C3_predict_label_shape (reduceFn : List (List ℚ) → List (List ℚ))
    (fit_predict : List (List ℚ) → List Int)
    (flat_features : List (List ℚ)) (H W d : ℕ)
    (hd : 0 < d) (hH : d ∣ H) (hW : d ∣ W)
    (hlen : (fit_predict (reduceFn flat_features)).length =
      block_reduce_dim H d * block_reduce_dim W d) :
    (predict_label reduceFn fit_predict flat_features
        (block_reduce_dim H d) (block_reduce_dim W d) d).length = H ∧
    ∀ row ∈ predict_label reduceFn fit_predict flat_features
        (block_reduce_dim H d) (block_reduce_dim W d) d, row.length = W := by
  constructor
  · rw [predict_label, rescale_nearest_length, reshape2d_length]
    exact block_reduce_dim_of_dvd H d hd hH
  · intro row hrow
    rw [predict_label] at hrow
    obtain ⟨r, hr, rfl⟩ := rescale_nearest_row_length _ d row hrow
    rw [flatten_replicate_length]
    have hcl : (cluster_features fit_predict (reduceFn flat_features)).length =
        block_reduce_dim H d * block_reduce_dim W d := by
      rw [cluster_features, List.length_map]
      exact hlen
    rw [reshape2d_row_length _ _ _ hcl r hr]
    exact block_reduce_dim_of_dvd W d hd hW

/-- Witness for C3 at concrete extents `H = 4`, `W = 6`, `d = 2`, identity
reduction and a clusterer returning one label per point. -/
theorem C3_witness :
    0 < 2 ∧ (2 : ℕ) ∣ 4 ∧ (2 : ℕ) ∣ 6 ∧
      ((fun l : List (List ℚ) => List.replicate l.length (0 : Int))
          (id (List.replicate 6 [(0 : ℚ)]))).length =
        block_reduce_dim 4 2 * block_reduce_dim 6 2 ∧
      (predict_label id (fun l => List.replicate l.length 0)
          (List.replicate 6 [(0 : ℚ)])
          (block_reduce_dim 4 2) (block_reduce_dim 6 2) 2).length = 4 ∧
      ∀ row ∈ predict_label id (fun l => List.replicate l.length 0)
          (List.replicate 6 [(0 : ℚ)])
          (block_reduce_dim 4 2) (block_reduce_dim 6 2) 2, row.length = 6 := by
  refine ⟨by decide, by decide, by decide, by decide, ?_⟩
  exact C3_predict_label_shape id (fun l => List.replicate l.length 0)
    (List.replicate 6 [(0 : ℚ)]) 4 6 2 (by decide) (by decide) (by decide) (by decide)

/-- C8: provided the raw clusterer labels obey the HDBSCAN contract — every
point gets either a cluster id `≥ 0` or the noise sentinel `-1` — every entry
of the mask returned by `predict_label` is non-negative: the noise sentinel is
remapped to the background id `0` by `cluster_features`, and the order-0
upscaling only replicates existing entries. -/
theorem C8_predict_label_nonneg (reduceFn : List (List ℚ) → List (List ℚ))
    (fit_predict : List (List ℚ) → List Int)
    (flat_features : List (List ℚ)) (h w d : ℕ)
    (hdb : ∀ v ∈ fit_predict (reduceFn flat_features), -1 ≤ v) :
    ∀ row ∈ predict_label reduceFn fit_predict flat_features h w d,
      ∀ u ∈ row, 0 ≤ u := by
  intro row hrow u hu
  rw [predict_label] at hrow
  obtain ⟨r, hr, rfl⟩ := rescale_nearest_row_length _ d row hrow
  obtain ⟨block, hblock, hub⟩ := List.mem_flatten.mp hu
  obtain ⟨u2, hu2, rfl⟩ := List.mem_map.mp hblock
  have hu3 : u = u2 := List.eq_of_mem_replicate hub
  subst hu3
  obtain ⟨i, _, rfl⟩ := List.mem_map.mp hr
  have hmem : u ∈ cluster_features fit_predict (reduceFn flat_features) :=
    List.drop_subset _ _ (List.take_subset _ _ hu2)
  rw [cluster_features] at hmem
  obtain ⟨v, hv, rfl⟩ := List.mem_map.mp hmem
  have hv2 := hdb v hv
  by_cases hveq : v = -1
  · simp [hveq]
  · simp only [hveq, if_false]
    omega

/-- Witness for C8 at a concrete clusterer output containing a noise point. -/
theorem C8_witness :
    (∀ v ∈ (fun _ : List (List ℚ) => [(-1 : Int), 0, 2, 1])
        (id [[(0 : ℚ)], [0], [0], [0]]), -1 ≤ v) ∧
      ∀ row ∈ predict_label id (fun _ => [(-1 : Int), 0, 2, 1])
          [[(0 : ℚ)], [0], [0], [0]] 2 2 2, ∀ u ∈ row, 0 ≤ u :=
  ⟨by decide, C8_predict_label_nonneg id (fun _ => [(-1 : Int), 0, 2, 1])
    [[(0 : ℚ)], [0], [0], [0]] 2 2 2 (by decide)⟩

/- ### Evaluator (`evaluate.py`) -/

/-- Aggregation structure of `evaluate_model`: each batch contributes a
(loss, dice) pair (the loss from the supplied loss function over the full
batch, the dice from `best_symmetric_dice` on the first sample), both summed
over the loop; the final division uses `i`, the `enumerate` index of the LAST
batch, which is `n - 1` for `n` batches.  `none` models the Python exception:
`NameError` for an empty dataloader (`i` is unbound after the loop) and
`ZeroDivisionError` for a single batch (`running_dice / 0`). -/
def evaluate_model (batches : List (ℚ × ℚ)) : Option (ℚ × ℚ) :=
  if batches.length = 0 then none
  else if batches.length = 1 then none
  else
    some (((batches.map Prod.fst).sum) / ((batches.length : ℚ) - 1),
          ((batches.map Prod.snd).sum) / ((batches.length : ℚ) - 1))

/-- C1 is a code bug: `evaluate_model` divides the running sums by the last
`enumerate` index `i = n - 1` instead of the batch count `n`.  A one-batch
dataloader does not return the batch's raw values — it raises
`ZeroDivisionError` — and a two-batch dataloader with losses `1, 3` and dice
values `0, 1` returns `(4, 1)`, not the averages `(2, 1/2)`. -/
theorem C1_evaluate_model_divides_by_last_index :
    evaluate_model [(2, 3/4)] = none ∧
    evaluate_model [(1, 0), (3, 1)] = some (4, 1) ∧
    evaluate_model [(1, 0), (3, 1)] ≠ some ((1 + 3) / 2, (0 + 1) / 2) := by
  refine ⟨rfl, ?_, ?_⟩
  · rw [evaluate_model]
    norm_num
  · rw [evaluate_model]
    norm_num

/- ### Visualization (`evaluate.py`) -/

/-- The in-place update `label[np.where(label == 255)] = 0` that `visualize`
performs on the caller's ground-truth array before saving it (an optional
`np.squeeze` of a leading singleton axis returns a view of the same buffer, so
the write hits the caller's data; the array is flattened here).  The image and
feature arrays are only read. -/
def visualize_label_effect (label : List Int) : List Int :=
  label.map (fun v => if v = 255 then 0 else v)

/-- Counterexample for C9: on a label array containing the value 255,
`visualize` mutates the caller's label array (255 is remapped to 0 in place),
so the caller's array does not hold the same values after the call. -/
theorem C9_counterexample :
    visualize_label_effect [255] ≠ [255] := by
  decide

/-- C9 (amended): `visualize` returns no value, but it is not free of effects
on its arguments: it overwrites every 255 entry of the caller's label array
with 0 in place.  The caller's label array is unchanged exactly when it
contains no 255 entry (the image and feature arrays are only read). -/
theorem C9_visualize_label_mutation (label : List Int) :
    visualize_label_effect label = label ↔ (255 : Int) ∉ label := by
  unfold visualize_label_effect
  induction label with
  | nil => simp
  | cons a l ih =>
    simp only [List.map_cons, List.cons_eq_cons, List.mem_cons, not_or, ih]
    constructor
    · rintro ⟨ha, hl⟩
      refine ⟨?_, hl⟩
      intro heq
      subst heq
      simp at ha
    · rintro ⟨ha, hl⟩
      have ha2 : a ≠ 255 := fun heq => ha heq.symm
      exact ⟨by simp [ha2], hl⟩

end InstanceSeg
